import Mathlib

/-!
Verification of the slot-replication component of openfheorg/contrib.

The repository ships the tests, the example driver and the crypto setup
for a DFS slot-replication engine; the engine itself lives in the header
slot-replication.h, which is not part of the visible sources.  The
definitions below therefore embed the engine as modelled from its
specification, validated against the concrete outputs documented in
tests/test-slot-replication.cpp (the listed replica contents for the
degree sequence [2,2,2,2] with two pattern repetitions), and the
theorems settle the frozen claims about it.
-/

namespace SlotRep

/-- Decrypted slot contents of a ciphertext: one integer per slot. -/
abbrev Vec := List Int

/-- Modelled from the spec: the per-level combine step of the replication
tree (part of the missing header slot-replication.h).  At a level with
fan-out `d` and sub-block stride `b`, the child for digit `v` is obtained
from the parent by masking the slots whose offset inside a block of `d*b`
slots lies in the `v`-th stride-`b` band and filling the vector with
cyclic right rotations of the masked vector by the multiples of `b`.
Pointwise, slot `j` receives the parent slot at cyclic distance `del*b`
to its left, where `del` is determined by the band of `j` and the digit
`v`.  This reproduces, slot for slot, the replica contents listed in the
comments of tests/test-slot-replication.cpp. -/
def combStep (b d v : Nat) (x : Vec) : Vec :=
  (List.range x.length).map fun j =>
    let c := (j % (d * b)) / b
    let del := (c + d - v) % d
    x.getD ((j + x.length - del * b) % x.length) 0

/-- Modelled from the spec: the per-level plan derived from a degree
sequence, pairing each fan-out with its sub-block stride, the product of
the fan-outs below it. -/
def levelsOf : List Nat → List (Nat × Nat)
  | [] => []
  | d :: rest => (d, rest.prod) :: levelsOf rest

/-- Modelled from the spec: descending from a node along digit value 0 at
every remaining level, recording one (digit, state) node per level. -/
def descend0 : List (Nat × Nat) → Vec → List (Nat × Vec)
  | [], _ => []
  | (d, b) :: rest, x =>
    let y := combStep b d 0 x
    (0, y) :: descend0 rest y

/-- Modelled from the spec: the mixed-radix advance of the DFS path.  The
deepest level whose digit can still be incremented is incremented, all
deeper nodes are discarded and recomputed by descending along digit 0,
and the ancestors above the increment point are reused verbatim.  Returns
none when every digit is at its maximum. -/
def advance : List (Nat × Nat) → List (Nat × Vec) → Vec → Option (List (Nat × Vec))
  | (d, b) :: lrest, (v, s) :: prest, parent =>
    match advance lrest prest s with
    | some tail => some ((v, s) :: tail)
    | none =>
      if v + 1 < d then
        let s2 := combStep b d (v + 1) parent
        some ((v + 1, s2) :: descend0 lrest s2)
      else none
  | _, _, _ => none

/-- Modelled from the spec: the error raised when a degree sequence does
not match the slot capacity. -/
inductive RepError where
  | InvalidDegreeSequence : RepError
deriving DecidableEq, Repr

/-- Modelled from the spec: the cursor is uninitialized, active with an
input vector, a path stack and the index of the next leaf to produce, or
exhausted. -/
inductive CursorState where
  | uninitialized : CursorState
  | active (input : Vec) (path : List (Nat × Vec)) (nextLeaf : Nat) : CursorState
  | exhausted : CursorState
deriving DecidableEq

/-- Modelled from the spec: the replication engine object, holding the
slot capacity taken from the encryption context, the degree sequence,
the repetition factor and the cursor state. -/
structure DFSSlotReplicator where
  nSlots : Nat
  degrees : List Nat
  nReps : Nat
  cursor : CursorState
deriving DecidableEq

/-- Modelled from the spec: construction validates that the product of
the degrees times the repetition factor equals the slot capacity and
that every degree is at least 2; otherwise it fails with
InvalidDegreeSequence.  No encrypted state is allocated: the cursor
starts uninitialized. -/
def mkReplicator (N : Nat) (D : List Nat) (R : Nat) : Except RepError DFSSlotReplicator :=
  if D.prod * R = N ∧ ∀ d ∈ D, 2 ≤ d then
    .ok ⟨N, D, R, .uninitialized⟩
  else
    .error .InvalidDegreeSequence

/-- State held at the deepest node of a path, or the input itself for an
empty path (an empty degree sequence has the input as its one replica). -/
def lastState (input : Vec) (path : List (Nat × Vec)) : Vec :=
  match path.getLast? with
  | some p => p.2
  | none => input

/-- Modelled from the spec: init discards any prior path stack, descends
along digit value 0 at every level and returns the deepest node state as
replica 0; the cursor becomes active with next leaf index 1, or exhausted
at once when there is a single replica. -/
def initCursor (r : DFSSlotReplicator) (ct : Vec) : Option Vec × DFSSlotReplicator :=
  if r.degrees.prod = 0 then
    (none, { r with cursor := .exhausted })
  else
    let path := descend0 (levelsOf r.degrees) ct
    let leaf := lastState ct path
    if r.degrees.prod = 1 then
      (some leaf, { r with cursor := .exhausted })
    else
      (some leaf, { r with cursor := .active ct path 1 })

/-- Modelled from the spec: next_replica advances the DFS cursor by one
leaf and returns the new deepest state; after returning the last leaf the
cursor transitions to exhausted, and any call on an exhausted or
uninitialized cursor returns null and leaves the state unchanged. -/
def next_replica (r : DFSSlotReplicator) : Option Vec × DFSSlotReplicator :=
  match r.cursor with
  | .active input path next =>
    match advance (levelsOf r.degrees) path input with
    | some path2 =>
      let leaf := lastState input path2
      if next + 1 < r.degrees.prod then
        (some leaf, { r with cursor := .active input path2 (next + 1) })
      else
        (some leaf, { r with cursor := .exhausted })
    | none => (none, { r with cursor := .exhausted })
  | _ => (none, r)

/-- Driving loop of the batch interface: keep calling next_replica until
it returns null, with fuel bounding the number of calls. -/
def nextLoop : Nat → DFSSlotReplicator → List Vec
  | 0, _ => []
  | fuel + 1, r =>
    match next_replica r with
    | (some c, r2) => c :: nextLoop fuel r2
    | (none, _) => []

/-- Modelled from the spec: batch_replicate constructs a replicator,
calls init once and then next_replica until it returns null, collecting
the replicas in index order.  A failed construction yields no replicas. -/
def batch_replicate (N : Nat) (ct : Vec) (D : List Nat) (R : Nat) : List Vec :=
  match mkReplicator N D R with
  | .error _ => []
  | .ok r =>
    match initCursor r ct with
    | (some c, r2) => c :: nextLoop D.prod r2
    | (none, _) => []

/-- Iterated next_replica: the replicator state after n manual calls. -/
def stepN : Nat → DFSSlotReplicator → DFSSlotReplicator
  | 0, r => r
  | n + 1, r => (next_replica (stepN n r)).2

/-- Manual driving protocol: the i-th replica obtained by one init call
followed by i next_replica calls on the same instance. -/
def manualOutput (r : DFSSlotReplicator) (ct : Vec) (i : Nat) : Option Vec :=
  match i with
  | 0 => (initCursor r ct).1
  | n + 1 => (next_replica (stepN n (initCursor r ct).2)).1

/-- Canonical periodic test input: N slots holding the values 1..P
repeated N/P times, slot j holding (j mod P) + 1. -/
def patVec (N P : Nat) : Vec :=
  (List.range N).map fun j => ((j % P : Nat) : Int) + 1

/-- Modelled from the spec: the staircase recursion of the degree
planner.  Given the previous digit and the remaining exponent, the next
digit is the largest value not exceeding both the previous digit minus
one and the remaining exponent, with floor value 1 once reached. -/
def staircaseAux : Nat → Nat → Nat → List Nat
  | 0, _, _ => []
  | fuel + 1, prev, rem =>
    if rem = 0 then []
    else
      let v := max 1 (min (prev - 1) rem)
      v :: staircaseAux fuel v (rem - v)

/-- Modelled from the spec: suggest_degrees factors the base-2 exponent
of P into the staircase digit sequence, first digit min 3 e, and returns
the per-level fan-outs 2 to the digit. -/
def suggest_degrees (P : Nat) : List Nat :=
  let e := Nat.log2 P
  if e = 0 then []
  else
    let v1 := min 3 e
    (v1 :: staircaseAux (e - v1) v1 (e - v1)).map fun v => 2 ^ v

/-- Modelled from the spec: get_rotation_amounts lists, level by level,
the rotation offsets the tree will ever use: at a level with fan-out d
and sub-block stride b (the product of the downstream fan-outs) the
offsets are the multiples b, 2*b, ..., (d-1)*b. -/
def get_rotation_amounts : List Nat → List Nat
  | [] => []
  | d :: rest =>
    ((List.range (d - 1)).map fun t => (t + 1) * rest.prod) ++ get_rotation_amounts rest

/-- Digits recorded along a path stack, root side first. -/
def pathDigits (p : List (Nat × Vec)) : List Nat := p.map Prod.fst

/-- Mixed-radix digits of a leaf index for a level plan, most significant
digit first: each level stride b splits off the digit i / b. -/
def mrOf : List (Nat × Nat) → Nat → List Nat
  | [], _ => []
  | (_, b) :: rest, i => (i / b) :: mrOf rest (i % b)

/-- Denotational chain of combine steps along a digit sequence. -/
def chainVec : List (Nat × Nat) → List Nat → Vec → Vec
  | (d, b) :: lrest, v :: vrest, x => chainVec lrest vrest (combStep b d v x)
  | _, _, x => x

/-- Well-formed level plan: every fan-out is at least 2 and each stride
is the product of the downstream fan-outs; the index is the product of
all fan-outs of the plan. -/
inductive LWF : List (Nat × Nat) → Nat → Prop where
  | nil : LWF [] 1
  | cons {d b : Nat} {rest : List (Nat × Nat)} (hd2 : 2 ≤ d) (h : LWF rest b) :
      LWF ((d, b) :: rest) (d * b)

/-- Path stacks that a traversal can hold: one node per level, each node
state computed from its parent by the level combine step, digits in
range. -/
inductive Coherent : List (Nat × Nat) → Vec → List (Nat × Vec) → Prop where
  | nil (x : Vec) : Coherent [] x []
  | cons {d b v : Nat} {x : Vec} {rest : List (Nat × Nat)} {tail : List (Nat × Vec)}
      (hv : v < d) (h : Coherent rest (combStep b d v x) tail) :
      Coherent ((d, b) :: rest) x ((v, combStep b d v x) :: tail)

/-- Slot-value invariant carried down the tree: the vector has N slots
and slot j holds the pattern value at offset base plus the residue of j
in the current block, everything read modulo the pattern length P. -/
def SelInv (x : Vec) (N P base blk : Nat) : Prop :=
  x.length = N ∧ ∀ j, j < N → x.getD j 0 = (((base + j % blk) % P : Nat) : Int) + 1

/-- First slot of an optional replica, used to state that a replica is a
constant vector. -/
def constVal (o : Option Vec) : Int := (o.getD []).getD 0 0

/-- Number of encrypted-vector handles resident in the cursor: the nodes
of the path stack of an active traversal, none otherwise. -/
def pathLen (r : DFSSlotReplicator) : Nat :=
  match r.cursor with
  | .active _ p _ => p.length
  | _ => 0

/-- States reachable from a replicator by any sequence of init and
next_replica calls. -/
inductive Reaches (r0 : DFSSlotReplicator) : DFSSlotReplicator → Prop where
  | refl : Reaches r0 r0
  | init (r : DFSSlotReplicator) (ct : Vec) : Reaches r0 r → Reaches r0 (initCursor r ct).2
  | next (r : DFSSlotReplicator) : Reaches r0 r → Reaches r0 (next_replica r).2

/-- Digits of the staircase sum to the remaining exponent. -/
lemma staircaseAux_sum : ∀ fuel prev rem, rem ≤ fuel →
    (staircaseAux fuel prev rem).sum = rem := by
  intro fuel
  induction fuel with
  | zero => intro prev rem h; interval_cases rem; simp [staircaseAux]
  | succ n ih =>
    intro prev rem h
    by_cases h0 : rem = 0
    · simp [staircaseAux, h0]
    · have h1 : 1 ≤ rem := Nat.one_le_iff_ne_zero.mpr h0
      have hv1 : 1 ≤ max 1 (min (prev - 1) rem) := le_max_left _ _
      have hvr : max 1 (min (prev - 1) rem) ≤ rem := by
        rcases le_or_lt (min (prev - 1) rem) 1 with hm | hm
        · simpa [Nat.max_eq_left hm] using h1
        · have := min_le_right (prev - 1) rem
          omega
      simp only [staircaseAux, h0, if_false, List.sum_cons]
      rw [ih _ (rem - max 1 (min (prev - 1) rem)) (by omega)]
      omega

/-- Product of the two-powers of a list is two to the sum. -/
lemma prod_map_two_pow (l : List Nat) : (l.map fun v => 2 ^ v).prod = 2 ^ l.sum := by
  induction l with
  | nil => simp
  | cons a t ih => simp [ih, pow_add]

/-- Base-2 logarithm of a power of two. -/
lemma log2_two_pow (e : Nat) : Nat.log2 (2 ^ e) = e := by
  rw [Nat.log2_eq_log_two]
  exact Nat.log_pow (by norm_num) e

/-- Claim C4: for every power of two P with exponent e, suggest_degrees
returns the staircase sequence of fan-outs, with first digit min 3 e and
each later digit the largest value not exceeding both the previous digit
minus one and the remaining exponent, floored at 1; in particular
suggest_degrees 8 = [8], suggest_degrees 16 = [8,2],
suggest_degrees 128 = [8,4,2,2], and suggest_degrees 1 = []. -/
theorem c4_suggest_degrees_staircase :
    (∀ e : Nat, suggest_degrees (2 ^ e) =
      if e = 0 then []
      else (min 3 e :: staircaseAux (e - min 3 e) (min 3 e) (e - min 3 e)).map fun v => 2 ^ v)
    ∧ suggest_degrees 8 = [8] ∧ suggest_degrees 16 = [8, 2]
    ∧ suggest_degrees 128 = [8, 4, 2, 2] ∧ suggest_degrees 1 = [] := by
  have hgen : ∀ e : Nat, suggest_degrees (2 ^ e) =
      if e = 0 then []
      else (min 3 e :: staircaseAux (e - min 3 e) (min 3 e) (e - min 3 e)).map fun v => 2 ^ v :=
    fun e => by simp only [suggest_degrees, log2_two_pow]
  refine ⟨hgen, ?_, ?_, ?_, ?_⟩
  · rw [show (8 : Nat) = 2 ^ 3 by norm_num, hgen 3]; decide
  · rw [show (16 : Nat) = 2 ^ 4 by norm_num, hgen 4]; decide
  · rw [show (128 : Nat) = 2 ^ 7 by norm_num, hgen 7]; decide
  · rw [show (1 : Nat) = 2 ^ 0 by norm_num, hgen 0]; decide

/-- Claim C5: for every power of two P, the fan-outs suggested by the
degree planner multiply back to P. -/
theorem c5_suggest_degrees_prod (e : Nat) : (suggest_degrees (2 ^ e)).prod = 2 ^ e := by
  rw [suggest_degrees]
  simp only [log2_two_pow]
  by_cases h0 : e = 0
  · simp [h0]
  · simp only [h0, if_false]
    rw [prod_map_two_pow, List.sum_cons,
      staircaseAux_sum (e - min 3 e) (min 3 e) (e - min 3 e) le_rfl]
    congr 1
    omega

/-- Characterization of a successful construction. -/
lemma mk_ok_iff {N : Nat} {D : List Nat} {R : Nat} {r : DFSSlotReplicator} :
    mkReplicator N D R = .ok r ↔
      D.prod * R = N ∧ (∀ d ∈ D, 2 ≤ d) ∧ r = ⟨N, D, R, .uninitialized⟩ := by
  unfold mkReplicator
  split_ifs with h
  · constructor
    · intro he
      exact ⟨h.1, h.2, (Except.ok.injEq _ _).mp he.symm⟩
    · intro he
      rw [he.2.2]
  · constructor
    · intro he
      exact absurd he (by simp)
    · intro he
      exact absurd ⟨he.1, he.2.1⟩ h

/-- Claim C6: construction succeeds, with an uninitialized cursor and no
encrypted state, exactly when the product of the degrees times the
repetition factor equals the slot capacity and every degree is at least
2; otherwise it fails with InvalidDegreeSequence. -/
theorem c6_construction_validation (N : Nat) (D : List Nat) (R : Nat) :
    (mkReplicator N D R = .ok ⟨N, D, R, .uninitialized⟩ ↔
        D.prod * R = N ∧ ∀ d ∈ D, 2 ≤ d)
    ∧ (mkReplicator N D R = .error .InvalidDegreeSequence ↔
        ¬(D.prod * R = N ∧ ∀ d ∈ D, 2 ≤ d)) := by
  constructor
  · rw [mk_ok_iff]
    tauto
  · unfold mkReplicator
    split_ifs with h
    · constructor
      · intro he
        exact absurd he (by simp)
      · intro hn
        exact absurd h hn
    · constructor
      · intro _
        exact h
      · intro _
        rfl

/-- Claim C3: the rotation-amount set of a degree sequence D is, level by
level, the set of multiples of the level sub-block size s_i, from s_i to
(d_i - 1) * s_i, where s_i = N / (d_1 * ... * d_i) for the full
replication capacity N = prod D; it is a function of D alone (the
repetition factor is not an argument). -/
theorem c3_rotation_amounts (D : List Nat) (N : Nat) (hd : ∀ d ∈ D, 2 ≤ d)
    (hN : N = D.prod) :
    get_rotation_amounts D =
      (List.range D.length).flatMap fun i =>
        (List.range (D.getD i 0 - 1)).map fun t => (t + 1) * (N / (D.take (i + 1)).prod) := by
  subst hN
  induction D with
  | nil => rfl
  | cons d rest ih =>
    have hdpos : 0 < d := by
      have := hd d (by simp)
      omega
    have hrest : ∀ x ∈ rest, 2 ≤ x := fun x hx => hd x (by simp [hx])
    rw [get_rotation_amounts, ih hrest, List.length_cons, List.range_succ_eq_map,
      List.flatMap_cons, List.flatMap_map]
    congr 1
    · apply List.map_congr_left
      intro t _
      simp only [List.getD_cons_zero, List.take_succ_cons, List.take_zero, List.prod_cons,
        List.prod_nil, List.prod_cons, mul_one]
      rw [Nat.mul_div_cancel_left _ hdpos]
    · apply List.flatMap_congr
      intro i _
      simp only [Function.comp_apply, List.getD_cons_succ, List.take_succ_cons, List.prod_cons]
      congr 1
      funext t
      rw [Nat.mul_div_mul_left _ _ hdpos]

lemma pathDigits_cons (v : Nat) (s : Vec) (l : List (Nat × Vec)) :
    pathDigits ((v, s) :: l) = v :: pathDigits l := rfl

lemma levelsOf_length (D : List Nat) : (levelsOf D).length = D.length := by
  induction D with
  | nil => rfl
  | cons d rest ih => simp [levelsOf, ih]

lemma lwf_levelsOf {D : List Nat} (hd : ∀ d ∈ D, 2 ≤ d) : LWF (levelsOf D) D.prod := by
  induction D with
  | nil => exact LWF.nil
  | cons d rest ih =>
    rw [levelsOf, List.prod_cons]
    exact LWF.cons (hd d (by simp)) (ih fun x hx => hd x (by simp [hx]))

lemma lwf_pos {lvls : List (Nat × Nat)} {P : Nat} (h : LWF lvls P) : 0 < P := by
  induction h with
  | nil => exact Nat.one_pos
  | cons hd2 _ ih => exact Nat.mul_pos (by omega) ih

lemma mrOf_zero (lvls : List (Nat × Nat)) : mrOf lvls 0 = List.replicate lvls.length 0 := by
  induction lvls with
  | nil => rfl
  | cons p rest ih => cases p; simp [mrOf, ih, List.replicate_succ]

lemma descend0_length (lvls : List (Nat × Nat)) (x : Vec) :
    (descend0 lvls x).length = lvls.length := by
  induction lvls generalizing x with
  | nil => rfl
  | cons p rest ih => cases p; simp [descend0, ih]

lemma descend0_digits (lvls : List (Nat × Nat)) (x : Vec) :
    pathDigits (descend0 lvls x) = List.replicate lvls.length 0 := by
  induction lvls generalizing x with
  | nil => rfl
  | cons p rest ih => cases p; simp [descend0, pathDigits, List.replicate_succ] at ih ⊢; exact ih _

lemma descend0_coherent {lvls : List (Nat × Nat)} {P : Nat} (hw : LWF lvls P) (x : Vec) :
    Coherent lvls x (descend0 lvls x) := by
  induction hw generalizing x with
  | nil => exact Coherent.nil x
  | cons hd2 _ ih => exact Coherent.cons (by omega) (ih _)

lemma lastState_cons (x : Vec) (v : Nat) (s : Vec) (tail : List (Nat × Vec)) :
    lastState x ((v, s) :: tail) = lastState s tail := by
  cases tail with
  | nil => rfl
  | cons h t =>
    rcases hl : (h :: t).getLast? with _ | p
    · exact absurd hl (by simp)
    · simp [lastState, List.getLast?_cons_cons, hl]

lemma coherent_lastState {lvls : List (Nat × Nat)} {x : Vec} {path : List (Nat × Vec)}
    (h : Coherent lvls x path) : lastState x path = chainVec lvls (pathDigits path) x := by
  induction h with
  | nil => rfl
  | cons hv _ ih => rw [lastState_cons]; exact ih

lemma advance_some_length :
    ∀ {lvls : List (Nat × Nat)} {path : List (Nat × Vec)} {x : Vec} {path2 : List (Nat × Vec)},
      advance lvls path x = some path2 → path2.length = lvls.length := by
  intro lvls
  induction lvls with
  | nil => intro path x path2 h; cases path <;> simp [advance] at h
  | cons p lrest ih =>
    intro path x path2 h
    obtain ⟨d, b⟩ := p
    cases path with
    | nil => simp [advance] at h
    | cons q prest =>
      obtain ⟨v, s⟩ := q
      rw [advance] at h
      rcases hrec : advance lrest prest s with _ | tail
      · rw [hrec] at h
        by_cases hvd : v + 1 < d
        · simp only [hvd, if_true] at h
          cases h
          simp [descend0_length]
        · simp [hvd] at h
      · rw [hrec] at h
        cases h
        simp [ih hrec]

lemma combStep_length (b d v : Nat) (x : Vec) : (combStep b d v x).length = x.length := by
  simp [combStep]

lemma combStep_getD {x : Vec} {j : Nat} (hj : j < x.length) (b d v : Nat) :
    (combStep b d v x).getD j 0 =
      x.getD ((j + x.length - (j % (d * b) / b + d - v) % d * b) % x.length) 0 := by
  have hj2 : j < (combStep b d v x).length := by rw [combStep_length]; exact hj
  rw [List.getD_eq_getElem _ _ hj2]
  simp [combStep]

/-- Arithmetic core of the combine-step invariant: the slot index read by
the combine step, reduced modulo the block size, is the digit offset plus
the residue of j in the sub-block. -/
lemma mod_key {b d v c del s j N : Nat} (hb : 0 < b) (hd0 : 0 < d) (hN : 0 < N)
    (hmN : d * b ∣ N) (hvd : v < d) (hjm : b * c + j % b = j % (d * b))
    (he2 : c + d = d * s + del + v) (hdel : del < d) :
    (j + N - del * b) % N % (d * b) = v * b + j % b := by
  obtain ⟨NQ, hNQ⟩ := hmN
  have hm : 0 < d * b := Nat.mul_pos hd0 hb
  have hNQ1 : 1 ≤ NQ := by
    rcases Nat.eq_zero_or_pos NQ with h0 | h1
    · rw [h0, Nat.mul_zero] at hNQ; omega
    · exact h1
  have hmleN : d * b ≤ N := by
    calc d * b = d * b * 1 := by rw [Nat.mul_one]
    _ ≤ d * b * NQ := Nat.mul_le_mul_left _ hNQ1
    _ = N := hNQ.symm
  have hdelb : del * b ≤ d * b := Nat.mul_le_mul_right _ (by omega)
  have hrb : j % b < b := Nat.mod_lt _ hb
  have hvb : v * b + b ≤ d * b := by
    have h3 := Nat.mul_le_mul_right b (show v + 1 ≤ d by omega)
    calc v * b + b = (v + 1) * b := by rw [Nat.add_mul, Nat.one_mul]
    _ ≤ d * b := h3
  rw [Nat.mod_mod_of_dvd _ ⟨NQ, hNQ⟩]
  have hE1 := Nat.div_add_mod j (d * b)
  rw [← hjm] at hE1
  have hE3 : c * b + d * b = d * b * s + del * b + v * b := by
    have h2 := congrArg (fun t => t * b) he2
    simp only [Nat.add_mul] at h2
    calc c * b + d * b = d * s * b + del * b + v * b := h2
    _ = d * b * s + del * b + v * b := by rw [mul_right_comm]
  have hdist : d * b * (j / (d * b) + s + NQ) =
      d * b * (j / (d * b)) + d * b * s + d * b * NQ := by
    rw [Nat.mul_add, Nat.mul_add]
  have hcb : b * c = c * b := Nat.mul_comm b c
  have hmaster : j + N - del * b + d * b =
      d * b * (j / (d * b) + s + NQ) + (v * b + j % b) := by
    omega
  calc (j + N - del * b) % (d * b)
      = (j + N - del * b + d * b) % (d * b) := (Nat.add_mod_right _ _).symm
    _ = (d * b * (j / (d * b) + s + NQ) + (v * b + j % b)) % (d * b) := by rw [hmaster]
    _ = (v * b + j % b) % (d * b) := by rw [Nat.mul_add_mod]
    _ = v * b + j % b :=
        Nat.mod_eq_of_lt (lt_of_lt_of_le (Nat.add_lt_add_left hrb _) hvb)

/-- One combine step transports the slot-value invariant: fixing digit v
at a level with fan-out d and stride b narrows the block from d*b to b
and moves the base by v*b. -/
lemma step_inv {x : Vec} {N P base b d v : Nat} (hPN : P ∣ N) (hmP : d * b ∣ P)
    (hb : 0 < b) (hv : v < d) (hN : 0 < N)
    (h : SelInv x N P base (d * b)) :
    SelInv (combStep b d v x) N P (base + v * b) b := by
  obtain ⟨hlen, hval⟩ := h
  have hd0 : 0 < d := by omega
  have hm : 0 < d * b := Nat.mul_pos hd0 hb
  have hmN : d * b ∣ N := hmP.trans hPN
  constructor
  · rw [combStep_length, hlen]
  · intro j hj
    have hjx : j < x.length := by rw [hlen]; exact hj
    rw [combStep_getD hjx, hlen]
    have hqN : (j + N - (j % (d * b) / b + d - v) % d * b) % N < N := Nat.mod_lt _ hN
    rw [hval _ hqN]
    have hjm : b * (j % (d * b) / b) + j % b = j % (d * b) := by
      have h1 : j % (d * b) % b = j % b := Nat.mod_mod_of_dvd j ⟨d, Nat.mul_comm d b⟩
      calc b * (j % (d * b) / b) + j % b
          = b * (j % (d * b) / b) + j % (d * b) % b := by rw [h1]
        _ = j % (d * b) := Nat.div_add_mod _ b
    have hcd : j % (d * b) / b < d := by
      have h1 : j % (d * b) < d * b := Nat.mod_lt _ hm
      exact (Nat.div_lt_iff_lt_mul hb).mpr h1
    have hsd := Nat.div_add_mod (j % (d * b) / b + d - v) d
    have hvle : v ≤ j % (d * b) / b + d := le_trans hv.le (Nat.le_add_left d _)
    have he2 : j % (d * b) / b + d =
        d * ((j % (d * b) / b + d - v) / d) + (j % (d * b) / b + d - v) % d + v := by
      rw [hsd, Nat.sub_add_cancel hvle]
    have hdel : (j % (d * b) / b + d - v) % d < d := Nat.mod_lt _ hd0
    have hkey := mod_key hb hd0 hN hmN hv hjm he2 hdel
    rw [hkey, Nat.add_assoc]

/-- Descending a well-formed level plan along the digits of a leaf index
turns the invariant into a constant leaf: block size 1 and base advanced
by the index. -/
lemma chain_leaf : ∀ {lvls : List (Nat × Nat)} {Q : Nat}, LWF lvls Q →
    ∀ {P N base i : Nat} {x : Vec}, Q ∣ P → P ∣ N → 0 < N →
      SelInv x N P base Q → i < Q →
      SelInv (chainVec lvls (mrOf lvls i) x) N P (base + i) 1 := by
  intro lvls Q hw
  induction hw with
  | nil =>
    intro P N base i x hQP hPN hN hinv hi
    interval_cases i
    simpa [chainVec, mrOf] using hinv
  | @cons d b rest hd2 hwrest ih =>
    intro P N base i x hQP hPN hN hinv hi
    have hb : 0 < b := lwf_pos hwrest
    have hvd : i / b < d := (Nat.div_lt_iff_lt_mul hb).mpr hi
    have hstep := step_inv hPN hQP hb hvd hN hinv
    have hbP : b ∣ P := (Dvd.intro_left d rfl).trans hQP
    have hres := @ih P N (base + i / b * b) (i % b) (combStep b d (i / b) x)
      hbP hPN hN hstep (Nat.mod_lt i hb)
    have hdm := Nat.div_add_mod i b
    have hcm : i / b * b = b * (i / b) := Nat.mul_comm _ _
    have hsplit : base + i / b * b + i % b = base + i := by omega
    simp only [mrOf, chainVec]
    rw [← hsplit]
    exact hres

/-- Base case of the invariant: the canonical periodic input satisfies it
with base 0 and block size the full pattern length. -/
lemma patVec_inv (N P : Nat) : SelInv (patVec N P) N P 0 P := by
  constructor
  · simp [patVec]
  · intro j hj
    have hj2 : j < (patVec N P).length := by simp [patVec]; exact hj
    rw [List.getD_eq_getElem _ _ hj2]
    simp [patVec, Nat.mod_mod_of_dvd j (dvd_refl P)]

/-- Correctness of the DFS advance: on a coherent path whose digits spell
the leaf index i, advance produces the coherent path of index i+1, and
returns none exactly when i was the last leaf. -/
lemma advance_spec : ∀ {lvls : List (Nat × Nat)} {P : Nat}, LWF lvls P →
    ∀ {x : Vec} {path : List (Nat × Vec)} {i : Nat},
      Coherent lvls x path → pathDigits path = mrOf lvls i → i < P →
      (i + 1 < P → ∃ path2, advance lvls path x = some path2 ∧ Coherent lvls x path2 ∧
        pathDigits path2 = mrOf lvls (i + 1)) ∧
      (i + 1 = P → advance lvls path x = none) := by
  intro lvls P hw
  induction hw with
  | nil =>
    intro x path i hco hdg hi
    cases hco
    exact ⟨fun h1 => absurd h1 (by omega), fun _ => rfl⟩
  | @cons d b rest hd2 hwrest ih =>
    intro x path i hco hdg hi
    have hb : 0 < b := lwf_pos hwrest
    cases hco with
    | @cons _ _ v _ _ tail hv hrest =>
      simp only [pathDigits, List.map_cons, mrOf, List.cons.injEq] at hdg
      obtain ⟨hv1, hdg2⟩ := hdg
      subst hv1
      have hdm := Nat.div_add_mod i b
      have hIH := ih hrest hdg2 (Nat.mod_lt _ hb)
      rcases Nat.lt_or_ge (i % b + 1) b with hcase | hcase
      · obtain ⟨tail2, ha, hc2, hdg3⟩ := hIH.1 hcase
        constructor
        · intro _
          refine ⟨(i / b, combStep b d (i / b) x) :: tail2, ?_, Coherent.cons hv hc2, ?_⟩
          · simp only [advance, ha]
          · have hdiv : (i + 1) / b = i / b := by
              rw [show i + 1 = (i % b + 1) + b * (i / b) from by omega,
                Nat.add_mul_div_left _ _ hb, Nat.div_eq_of_lt hcase, Nat.zero_add]
            have hmod : (i + 1) % b = i % b + 1 := by
              rw [show i + 1 = (i % b + 1) + b * (i / b) from by omega,
                Nat.add_mul_mod_self_left, Nat.mod_eq_of_lt hcase]
            simp only [pathDigits_cons, mrOf]
            rw [hdiv, hmod, hdg3]
        · intro h2
          exfalso
          have hbdvd : b ∣ i + 1 := ⟨d, by rw [h2, Nat.mul_comm]⟩
          have hrem : b ∣ i % b + 1 := by
            have h3 : i % b + 1 = (i + 1) - b * (i / b) := by omega
            rw [h3]
            exact Nat.dvd_sub' hbdvd (Dvd.intro _ rfl)
          have := Nat.le_of_dvd (by omega) hrem
          omega
      · have hmb : i % b < b := Nat.mod_lt _ hb
        have hcaseeq : i % b + 1 = b := by omega
        have hnone := hIH.2 hcaseeq
        have hkey : i + 1 = b * (i / b + 1) := by
          rw [Nat.mul_add, Nat.mul_one]
          omega
        constructor
        · intro h1
          have hvd1 : i / b + 1 < d := by
            by_contra hge
            push_neg at hge
            have hEq : i / b + 1 = d := by
              have : i / b < d := (Nat.div_lt_iff_lt_mul hb).mpr hi
              omega
            rw [hkey, hEq] at h1
            have hmc : b * d = d * b := Nat.mul_comm b d
            omega
          refine ⟨(i / b + 1, combStep b d (i / b + 1) x)
              :: descend0 rest (combStep b d (i / b + 1) x), ?_,
              Coherent.cons hvd1 (descend0_coherent hwrest _), ?_⟩
          · simp only [advance, hnone, hvd1, if_true]
          · have hdiv : (i + 1) / b = i / b + 1 := by
              rw [hkey, Nat.mul_div_cancel_left _ hb]
            have hmod : (i + 1) % b = 0 := by
              rw [hkey]
              exact Nat.mul_mod_right b _
            simp only [pathDigits_cons, mrOf]
            rw [hdiv, hmod, descend0_digits, mrOf_zero]
        · intro h2
          have hEq : i / b + 1 = d := by
            have h3 : b * (i / b + 1) = b * d := by
              rw [← hkey, h2, Nat.mul_comm]
            exact Nat.eq_of_mul_eq_mul_left hb h3
          simp only [advance, hnone, hEq, Nat.lt_irrefl, if_false]

lemma prod_pos_of_two_le {D : List Nat} (hd : ∀ d ∈ D, 2 ≤ d) : 0 < D.prod :=
  lwf_pos (lwf_levelsOf hd)

lemma initCursor_eq (r : DFSSlotReplicator) (ct : Vec) :
    initCursor r ct =
      if r.degrees.prod = 0 then (none, { r with cursor := .exhausted })
      else if r.degrees.prod = 1 then
        (some (lastState ct (descend0 (levelsOf r.degrees) ct)),
          { r with cursor := .exhausted })
      else
        (some (lastState ct (descend0 (levelsOf r.degrees) ct)),
          { r with cursor := .active ct (descend0 (levelsOf r.degrees) ct) 1 }) := rfl

lemma initCursor_lit (a : Nat) (Dg : List Nat) (c : Nat) (cur : CursorState) (ct : Vec) :
    initCursor ⟨a, Dg, c, cur⟩ ct =
      if Dg.prod = 0 then (none, ⟨a, Dg, c, .exhausted⟩)
      else if Dg.prod = 1 then
        (some (lastState ct (descend0 (levelsOf Dg) ct)), ⟨a, Dg, c, .exhausted⟩)
      else (some (lastState ct (descend0 (levelsOf Dg) ct)),
        ⟨a, Dg, c, .active ct (descend0 (levelsOf Dg) ct) 1⟩) := rfl

lemma next_replica_adv_some {a : Nat} {Dg : List Nat} {c : Nat} {input : Vec}
    {path path2 : List (Nat × Vec)} {next : Nat}
    (ha : advance (levelsOf Dg) path input = some path2) :
    next_replica ⟨a, Dg, c, .active input path next⟩ =
      if next + 1 < Dg.prod then
        (some (lastState input path2), ⟨a, Dg, c, .active input path2 (next + 1)⟩)
      else (some (lastState input path2), ⟨a, Dg, c, .exhausted⟩) := by
  simp only [next_replica, ha]

lemma next_replica_adv_none {a : Nat} {Dg : List Nat} {c : Nat} {input : Vec}
    {path : List (Nat × Vec)} {next : Nat}
    (ha : advance (levelsOf Dg) path input = none) :
    next_replica ⟨a, Dg, c, .active input path next⟩ = (none, ⟨a, Dg, c, .exhausted⟩) := by
  simp only [next_replica, ha]

lemma nextLoop_cons {fuel : Nat} {r r2 : DFSSlotReplicator} {c : Vec}
    (h : next_replica r = (some c, r2)) :
    nextLoop (fuel + 1) r = c :: nextLoop fuel r2 := by
  simp only [nextLoop, h]

lemma nextLoop_nil {fuel : Nat} {r r2 : DFSSlotReplicator}
    (h : next_replica r = (none, r2)) :
    nextLoop (fuel + 1) r = [] := by
  simp only [nextLoop, h]

/-- State reached after n manual advance calls following an init: active
on the coherent path of leaf index n while leaves remain, exhausted once
the last leaf has been produced. -/
lemma stepN_init_spec {N R : Nat} {D : List Nat} (hd : ∀ d ∈ D, 2 ≤ d) (ct : Vec) (n : Nat) :
    (n + 1 < D.prod →
      ∃ path, stepN n (initCursor ⟨N, D, R, .uninitialized⟩ ct).2 =
          ⟨N, D, R, .active ct path (n + 1)⟩ ∧
        Coherent (levelsOf D) ct path ∧ pathDigits path = mrOf (levelsOf D) n) ∧
    (D.prod ≤ n + 1 → stepN n (initCursor ⟨N, D, R, .uninitialized⟩ ct).2 =
      ⟨N, D, R, .exhausted⟩) := by
  have hw := lwf_levelsOf hd
  have hP1 : 0 < D.prod := prod_pos_of_two_le hd
  induction n with
  | zero =>
    constructor
    · intro h1
      refine ⟨descend0 (levelsOf D) ct, ?_, descend0_coherent hw ct, ?_⟩
      · simp only [stepN, initCursor_lit]
        rw [if_neg (by omega), if_neg (by omega)]
      · rw [descend0_digits, mrOf_zero]
    · intro h2
      have hEq : D.prod = 1 := by omega
      simp only [stepN, initCursor_lit]
      rw [if_neg (by omega), if_pos hEq]
  | succ n ih =>
    constructor
    · intro h1
      obtain ⟨path, hst, hco, hdg⟩ := ih.1 (by omega)
      obtain ⟨path2, ha, hco2, hdg2⟩ := (advance_spec hw hco hdg (by omega)).1 (by omega)
      refine ⟨path2, ?_, hco2, hdg2⟩
      simp only [stepN]
      rw [hst, next_replica_adv_some ha, if_pos (by omega)]
    · intro h2
      rcases Nat.lt_or_ge (n + 1) D.prod with hlt | hge
      · obtain ⟨path, hst, hco, hdg⟩ := ih.1 (by omega)
        obtain ⟨path2, ha, hco2, hdg2⟩ := (advance_spec hw hco hdg (by omega)).1 (by omega)
        simp only [stepN]
        rw [hst, next_replica_adv_some ha, if_neg (by omega)]
      · have hst := ih.2 (by omega)
        simp only [stepN]
        rw [hst]
        rfl

/-- Value returned by the manual protocol: the i-th output is the chain
of combine steps along the digits of i while i is in range, and null
afterwards. -/
lemma manualOutput_spec {N R : Nat} {D : List Nat} (hd : ∀ d ∈ D, 2 ≤ d) (ct : Vec) (i : Nat) :
    manualOutput ⟨N, D, R, .uninitialized⟩ ct i =
      if i < D.prod then some (chainVec (levelsOf D) (mrOf (levelsOf D) i) ct) else none := by
  have hw := lwf_levelsOf hd
  have hP1 : 0 < D.prod := prod_pos_of_two_le hd
  have hleaf0 : lastState ct (descend0 (levelsOf D) ct) =
      chainVec (levelsOf D) (mrOf (levelsOf D) 0) ct := by
    rw [coherent_lastState (descend0_coherent hw ct), descend0_digits, mrOf_zero]
  cases i with
  | zero =>
    rw [if_pos hP1]
    simp only [manualOutput, initCursor_lit]
    rw [if_neg (by omega)]
    split_ifs with h1 <;> simp [hleaf0]
  | succ n =>
    simp only [manualOutput]
    rcases Nat.lt_or_ge (n + 1) D.prod with hlt | hge
    · rw [if_pos hlt]
      obtain ⟨path, hst, hco, hdg⟩ := (stepN_init_spec hd ct n).1 (by omega)
      rw [hst]
      obtain ⟨path2, ha, hco2, hdg2⟩ := (advance_spec hw hco hdg (by omega)).1 (by omega)
      rw [next_replica_adv_some ha]
      have hleaf : lastState ct path2 =
          chainVec (levelsOf D) (mrOf (levelsOf D) (n + 1)) ct := by
        rw [coherent_lastState hco2, hdg2]
      split_ifs <;> simp [hleaf]
    · rw [if_neg (by omega), (stepN_init_spec hd ct n).2 (by omega)]
      rfl

lemma nextLoop_exhausted (fuel : Nat) (N R : Nat) (D : List Nat) :
    nextLoop fuel ⟨N, D, R, .exhausted⟩ = [] := by
  cases fuel <;> rfl

/-- Outputs of the driving loop from an active state of leaf index i:
the remaining leaves i+1 .. P-1 in order. -/
lemma nextLoop_spec {N R : Nat} {D : List Nat} (hd : ∀ d ∈ D, 2 ≤ d) (ct : Vec) :
    ∀ (fuel i : Nat) (path : List (Nat × Vec)),
      Coherent (levelsOf D) ct path → pathDigits path = mrOf (levelsOf D) i →
      i < D.prod → D.prod ≤ i + 1 + fuel →
      nextLoop fuel ⟨N, D, R, .active ct path (i + 1)⟩ =
        (List.range' (i + 1) (D.prod - 1 - i)).map
          fun t => chainVec (levelsOf D) (mrOf (levelsOf D) t) ct := by
  have hw := lwf_levelsOf hd
  intro fuel
  induction fuel with
  | zero =>
    intro i path hco hdg hi hfuel
    rw [show D.prod - 1 - i = 0 from by omega]
    rfl
  | succ fuel ih =>
    intro i path hco hdg hi hfuel
    rcases Nat.lt_or_ge (i + 1) D.prod with hlt | hge
    · obtain ⟨path2, ha, hco2, hdg2⟩ := (advance_spec hw hco hdg hi).1 hlt
      have hleaf : lastState ct path2 =
          chainVec (levelsOf D) (mrOf (levelsOf D) (i + 1)) ct := by
        rw [coherent_lastState hco2, hdg2]
      rw [show D.prod - 1 - i = (D.prod - 1 - (i + 1)) + 1 from by omega]
      rw [List.range'_succ, List.map_cons]
      rcases Nat.lt_or_ge (i + 2) D.prod with hlt2 | hge2
      · have hnr : next_replica ⟨N, D, R, .active ct path (i + 1)⟩ =
            (some (lastState ct path2), ⟨N, D, R, .active ct path2 (i + 1 + 1)⟩) := by
          rw [next_replica_adv_some ha, if_pos (by omega)]
        rw [nextLoop_cons hnr, ih (i + 1) path2 hco2 hdg2 (by omega) (by omega), hleaf]
      · have hnr : next_replica ⟨N, D, R, .active ct path (i + 1)⟩ =
            (some (lastState ct path2), ⟨N, D, R, .exhausted⟩) := by
          rw [next_replica_adv_some ha, if_neg (by omega)]
        rw [nextLoop_cons hnr, nextLoop_exhausted]
        rw [show D.prod - 1 - (i + 1) = 0 from by omega]
        rw [hleaf]
        rfl
    · have hnr : next_replica ⟨N, D, R, .active ct path (i + 1)⟩ =
          (none, ⟨N, D, R, .exhausted⟩) :=
        next_replica_adv_none ((advance_spec hw hco hdg hi).2 (by omega))
      rw [nextLoop_nil hnr]
      rw [show D.prod - 1 - i = 0 from by omega]
      rfl

/-- Batch replication lists every leaf of the tree in index order. -/
lemma batch_spec {N R : Nat} {D : List Nat} (hd : ∀ d ∈ D, 2 ≤ d) (hNR : D.prod * R = N)
    (ct : Vec) :
    batch_replicate N ct D R =
      (List.range D.prod).map fun t => chainVec (levelsOf D) (mrOf (levelsOf D) t) ct := by
  have hw := lwf_levelsOf hd
  have hP1 : 0 < D.prod := prod_pos_of_two_le hd
  have hmk : mkReplicator N D R = .ok ⟨N, D, R, .uninitialized⟩ :=
    mk_ok_iff.mpr ⟨hNR, hd, rfl⟩
  have hleaf0 : lastState ct (descend0 (levelsOf D) ct) =
      chainVec (levelsOf D) (mrOf (levelsOf D) 0) ct := by
    rw [coherent_lastState (descend0_coherent hw ct), descend0_digits, mrOf_zero]
  have hrange : List.range D.prod = 0 :: List.range' 1 (D.prod - 1) := by
    rw [List.range_eq_range']
    conv_lhs => rw [show D.prod = (D.prod - 1) + 1 from by omega]
    rw [List.range'_succ]
  by_cases h1 : D.prod = 1
  · have hinit : initCursor ⟨N, D, R, .uninitialized⟩ ct =
        (some (lastState ct (descend0 (levelsOf D) ct)), ⟨N, D, R, .exhausted⟩) := by
      rw [initCursor_lit, if_neg (by omega), if_pos h1]
    simp only [batch_replicate, hmk, hinit]
    rw [hrange, List.map_cons]
    rw [show D.prod - 1 = 0 from by omega]
    simp only [List.range', List.map_nil]
    rw [nextLoop_exhausted, hleaf0]
  · have hinit : initCursor ⟨N, D, R, .uninitialized⟩ ct =
        (some (lastState ct (descend0 (levelsOf D) ct)),
          ⟨N, D, R, .active ct (descend0 (levelsOf D) ct) 1⟩) := by
      rw [initCursor_lit, if_neg (by omega), if_neg h1]
    simp only [batch_replicate, hmk, hinit]
    rw [hrange, List.map_cons]
    have hloop := @nextLoop_spec N R D hd ct D.prod 0 (descend0 (levelsOf D) ct)
      (descend0_coherent hw ct) (by rw [descend0_digits, mrOf_zero]) (by omega) (by omega)
    rw [show (0 : Nat) + 1 = 1 from rfl] at hloop
    rw [hloop, hleaf0]
    rw [show D.prod - 1 - 0 = D.prod - 1 from by omega]

lemma initCursor_cursor_irrel (a : Nat) (Dg : List Nat) (c : Nat) (cur cur2 : CursorState)
    (ct : Vec) :
    initCursor ⟨a, Dg, c, cur⟩ ct = initCursor ⟨a, Dg, c, cur2⟩ ct := rfl

lemma manualOutput_cursor_irrel (a : Nat) (Dg : List Nat) (c : Nat) (cur : CursorState)
    (ct : Vec) (i : Nat) :
    manualOutput ⟨a, Dg, c, cur⟩ ct i = manualOutput ⟨a, Dg, c, .uninitialized⟩ ct i := by
  cases i with
  | zero => simp only [manualOutput, initCursor_cursor_irrel a Dg c cur .uninitialized ct]
  | succ n => simp only [manualOutput, initCursor_cursor_irrel a Dg c cur .uninitialized ct]

lemma next_replica_shape (a : Nat) (Dg : List Nat) (c : Nat) (cur : CursorState) :
    ∃ cur2, (next_replica ⟨a, Dg, c, cur⟩).2 = ⟨a, Dg, c, cur2⟩ := by
  cases cur with
  | uninitialized => exact ⟨_, rfl⟩
  | exhausted => exact ⟨_, rfl⟩
  | active input path next =>
    rcases hadv : advance (levelsOf Dg) path input with _ | p2
    · exact ⟨.exhausted, by simp only [next_replica, hadv]⟩
    · by_cases hn : next + 1 < Dg.prod
      · exact ⟨.active input p2 (next + 1), by simp only [next_replica, hadv]; rw [if_pos hn]⟩
      · exact ⟨.exhausted, by simp only [next_replica, hadv]; rw [if_neg hn]⟩

lemma stepN_shape (m : Nat) (a : Nat) (Dg : List Nat) (c : Nat) (cur : CursorState) :
    ∃ cur2, stepN m ⟨a, Dg, c, cur⟩ = ⟨a, Dg, c, cur2⟩ := by
  induction m with
  | zero => exact ⟨cur, rfl⟩
  | succ m ih =>
    obtain ⟨cur2, h2⟩ := ih
    obtain ⟨cur3, h3⟩ := next_replica_shape a Dg c cur2
    exact ⟨cur3, by rw [stepN, h2, h3]⟩

lemma initCursor_shape (a : Nat) (Dg : List Nat) (c : Nat) (cur : CursorState) (ct : Vec) :
    ∃ cur2, (initCursor ⟨a, Dg, c, cur⟩ ct).2 = ⟨a, Dg, c, cur2⟩ := by
  rw [initCursor_eq]
  split_ifs with h0 h1
  · exact ⟨_, rfl⟩
  · exact ⟨_, rfl⟩
  · exact ⟨_, rfl⟩

lemma stepN_add (a m : Nat) (r : DFSSlotReplicator) :
    stepN (a + m) r = stepN m (stepN a r) := by
  induction m with
  | zero => rfl
  | succ m ih =>
    rw [Nat.add_succ]
    simp only [stepN]
    rw [ih]

lemma initCursor_snd_degrees (r : DFSSlotReplicator) (ct : Vec) :
    ((initCursor r ct).2).degrees = r.degrees := by
  rw [initCursor_eq]
  split_ifs <;> rfl

lemma next_replica_snd_degrees (r : DFSSlotReplicator) :
    ((next_replica r).2).degrees = r.degrees := by
  rcases hc : r.cursor with _ | ⟨input, path, next⟩ | _
  · simp only [next_replica, hc]
  · rcases hadv : advance (levelsOf r.degrees) path input with _ | p2
    · simp only [next_replica, hc, hadv]
    · simp only [next_replica, hc, hadv]
      split_ifs <;> rfl
  · simp only [next_replica, hc]

lemma pathLen_initCursor (r : DFSSlotReplicator) (ct : Vec) :
    pathLen (initCursor r ct).2 ≤ r.degrees.length := by
  rw [initCursor_eq]
  split_ifs <;> simp [pathLen, descend0_length, levelsOf_length]

lemma pathLen_next_le (r : DFSSlotReplicator) (h : pathLen r ≤ r.degrees.length) :
    pathLen (next_replica r).2 ≤ r.degrees.length := by
  rcases hc : r.cursor with _ | ⟨input, path, next⟩ | _
  · simp only [next_replica, hc]
    exact h
  · rcases hadv : advance (levelsOf r.degrees) path input with _ | p2
    · simp only [next_replica, hc, hadv]
      simp [pathLen]
    · simp only [next_replica, hc, hadv]
      have hlen := advance_some_length hadv
      rw [levelsOf_length] at hlen
      split_ifs <;> simp [pathLen, hlen]
  · simp only [next_replica, hc]
    exact h

/-- Shared end-to-end correctness: with a valid degree sequence, the
matching repetition factor and the canonical periodic input, the i-th
replica produced by the manual protocol is the constant vector i+1. -/
lemma replication_correct {D : List Nat} {N R : Nat} (hd : ∀ d ∈ D, 2 ≤ d)
    (hNR : D.prod * R = N) (hR : 1 ≤ R) {i : Nat} (hi : i < D.prod) :
    manualOutput ⟨N, D, R, .uninitialized⟩ (patVec N D.prod) i =
      some (List.replicate N (((i : Nat) : Int) + 1)) := by
  rw [manualOutput_spec hd _ i, if_pos hi]
  congr 1
  have hPN : D.prod ∣ N := ⟨R, hNR.symm⟩
  have hP1 : 0 < D.prod := prod_pos_of_two_le hd
  have hN : 0 < N := by
    rw [← hNR]
    exact Nat.mul_pos hP1 hR
  obtain ⟨hlen, hval⟩ := chain_leaf (lwf_levelsOf hd) (dvd_refl D.prod) hPN hN
    (patVec_inv N D.prod) hi
  rw [List.eq_replicate_iff]
  refine ⟨hlen, fun bv hb => ?_⟩
  obtain ⟨j, hj, rfl⟩ := List.mem_iff_getElem.mp hb
  have hj2 : j < N := by rw [← hlen]; exact hj
  have hgv := hval j hj2
  rw [List.getD_eq_getElem _ _ hj] at hgv
  rw [hgv]
  have him : (0 + i + j % 1) % D.prod = i := by
    simp [Nat.mod_one, Nat.mod_eq_of_lt hi]
  rw [him]

/-- Claim C1: end-to-end full replication.  For every valid degree
sequence D with product P dividing the slot capacity N (the repetition
factor being N / P, which is 1 exactly when P = N), if the input holds
the values 1..P repeated to fill N slots, the replica produced at
position i (by init for i = 0 and by the i-th next_replica call
otherwise) is the constant vector whose every slot equals i + 1. -/
theorem c1_full_replication (D : List Nat) (N R : Nat) (r : DFSSlotReplicator)
    (hd : ∀ d ∈ D, 2 ≤ d) (hNR : D.prod * R = N) (hR : 1 ≤ R)
    (hmk : mkReplicator N D R = .ok r) (i : Nat) (hi : i < D.prod) :
    manualOutput r (patVec N D.prod) i = some (List.replicate N (((i : Nat) : Int) + 1)) := by
  obtain ⟨-, -, rfl⟩ := mk_ok_iff.mp hmk
  exact replication_correct hd hNR hR hi

/-- Witness for C1: D = [2], N = 2, R = 1, input pattern 1,2; the second
replica is the constant vector 2. -/
theorem c1_full_replication_witness :
    manualOutput ⟨2, [2], 1, .uninitialized⟩ (patVec 2 2) 1 =
      some (List.replicate 2 (((1 : Nat) : Int) + 1)) :=
  c1_full_replication [2] 2 1 ⟨2, [2], 1, .uninitialized⟩ (by decide) (by decide)
    (by decide) (mk_ok_iff.mpr ⟨by decide, by decide, rfl⟩) 1 (by decide)

/-- Claim C2: batch_replicate returns a sequence of exactly P replicas
that is equal index-for-index to the sequence obtained by constructing
the replicator, calling init once and then next_replica repeatedly. -/
theorem c2_batch_equals_manual (D : List Nat) (N R : Nat) (ct : Vec)
    (hd : ∀ d ∈ D, 2 ≤ d) (hNR : D.prod * R = N) (i : Nat) :
    (batch_replicate N ct D R).length = D.prod ∧
      (batch_replicate N ct D R)[i]? =
        if i < D.prod then manualOutput ⟨N, D, R, .uninitialized⟩ ct i else none := by
  rw [batch_spec hd hNR ct]
  constructor
  · simp
  · by_cases hi : i < D.prod
    · rw [if_pos hi, manualOutput_spec hd ct i, if_pos hi]
      rw [List.getElem?_map, List.getElem?_range hi]
      rfl
    · rw [if_neg hi]
      apply List.getElem?_eq_none
      simp
      omega

/-- Witness for C2: D = [2], N = 2, R = 1, index 0. -/
theorem c2_batch_equals_manual_witness :
    (batch_replicate 2 (patVec 2 2) [2] 1).length = ([2] : List Nat).prod ∧
      (batch_replicate 2 (patVec 2 2) [2] 1)[0]? =
        if 0 < ([2] : List Nat).prod then
          manualOutput ⟨2, [2], 1, .uninitialized⟩ (patVec 2 2) 0
        else none :=
  c2_batch_equals_manual [2] 2 1 (patVec 2 2) (by decide) (by decide) 0

/-- Witness for C3: D = [2, 2] with N = 4 gives offsets 2 and 1. -/
theorem c3_rotation_amounts_witness :
    get_rotation_amounts [2, 2] =
      (List.range ([2, 2] : List Nat).length).flatMap fun i =>
        (List.range (([2, 2] : List Nat).getD i 0 - 1)).map fun t =>
          (t + 1) * (4 / (([2, 2] : List Nat).take (i + 1)).prod) :=
  c3_rotation_amounts [2, 2] 4 (by decide) (by decide)

/-- Claim C7: partial replication with R = 2, D = [2,2,2,2], P = 16,
N = 32 and input 1..16 repeated twice: replica i is a constant vector
whose value reduced modulo 16 equals (i+1) mod 16. -/
theorem c7_partial_replication (r : DFSSlotReplicator)
    (hmk : mkReplicator 32 [2, 2, 2, 2] 2 = .ok r) (i : Nat) (hi : i < 16) :
    manualOutput r (patVec 32 16) i =
        some (List.replicate 32 (constVal (manualOutput r (patVec 32 16) i))) ∧
      constVal (manualOutput r (patVec 32 16) i) % 16 = (((i : Nat) : Int) + 1) % 16 := by
  obtain ⟨-, -, rfl⟩ := mk_ok_iff.mp hmk
  have h16 : ([2, 2, 2, 2] : List Nat).prod = 16 := by decide
  have hrep := @replication_correct [2, 2, 2, 2] 32 2 (by decide) (by decide) (by decide) i
    (by rw [h16]; exact hi)
  rw [h16] at hrep
  rw [hrep]
  have hcv : constVal (some (List.replicate 32 (((i : Nat) : Int) + 1))) =
      ((i : Nat) : Int) + 1 := rfl
  rw [hcv]
  exact ⟨rfl, rfl⟩

/-- Witness for C7: index 1 yields the constant 2, congruent to 2 mod 16. -/
theorem c7_partial_replication_witness :
    manualOutput ⟨32, [2, 2, 2, 2], 2, .uninitialized⟩ (patVec 32 16) 1 =
        some (List.replicate 32 (constVal (manualOutput ⟨32, [2, 2, 2, 2], 2,
          .uninitialized⟩ (patVec 32 16) 1))) ∧
      constVal (manualOutput ⟨32, [2, 2, 2, 2], 2, .uninitialized⟩ (patVec 32 16) 1) % 16 =
        (((1 : Nat) : Int) + 1) % 16 :=
  c7_partial_replication ⟨32, [2, 2, 2, 2], 2, .uninitialized⟩
    (mk_ok_iff.mpr ⟨by decide, by decide, rfl⟩) 1 (by decide)

/-- Claim C8: after init plus P-1 next_replica calls have produced all P
replicas, every further next_replica call returns null and keeps doing so,
while a new init produces a replica again. -/
theorem c8_exhaustion (D : List Nat) (N R : Nat) (r : DFSSlotReplicator) (ct ct2 : Vec)
    (hmk : mkReplicator N D R = .ok r) (m i : Nat) (hi : i < D.prod) :
    (next_replica (stepN (D.prod - 1 + m) (initCursor r ct).2)).1 = none ∧
      (initCursor (stepN (D.prod - 1 + m) (initCursor r ct).2) ct2).1.isSome = true ∧
      (manualOutput r ct i).isSome = true := by
  obtain ⟨hNR, hd, rfl⟩ := mk_ok_iff.mp hmk
  have hP1 : 0 < D.prod := prod_pos_of_two_le hd
  have hsx : stepN (D.prod - 1) (initCursor ⟨N, D, R, .uninitialized⟩ ct).2 =
      ⟨N, D, R, .exhausted⟩ :=
    (stepN_init_spec hd ct (D.prod - 1)).2 (by omega)
  have hsm : ∀ k, stepN k (⟨N, D, R, .exhausted⟩ : DFSSlotReplicator) =
      ⟨N, D, R, .exhausted⟩ := by
    intro k
    induction k with
    | zero => rfl
    | succ k ih =>
      simp only [stepN]
      rw [ih]
      rfl
  have hadd : stepN (D.prod - 1 + m) (initCursor ⟨N, D, R, .uninitialized⟩ ct).2 =
      ⟨N, D, R, .exhausted⟩ := by
    rw [stepN_add, hsx, hsm]
  refine ⟨?_, ?_, ?_⟩
  · rw [hadd]
    rfl
  · rw [hadd, initCursor_lit, if_neg (by omega)]
    split_ifs <;> rfl
  · rw [manualOutput_spec hd ct i, if_pos hi]
    rfl

/-- Witness for C8: D = [2], N = 2, R = 1, one extra call after the two
replicas. -/
theorem c8_exhaustion_witness :
    (next_replica (stepN (([2] : List Nat).prod - 1 + 0)
        (initCursor ⟨2, [2], 1, .uninitialized⟩ (patVec 2 2)).2)).1 = none ∧
      (initCursor (stepN (([2] : List Nat).prod - 1 + 0)
        (initCursor ⟨2, [2], 1, .uninitialized⟩ (patVec 2 2)).2) (patVec 2 2)).1.isSome = true ∧
      (manualOutput ⟨2, [2], 1, .uninitialized⟩ (patVec 2 2) 0).isSome = true :=
  c8_exhaustion [2] 2 1 ⟨2, [2], 1, .uninitialized⟩ (patVec 2 2) (patVec 2 2)
    (mk_ok_iff.mpr ⟨by decide, by decide, rfl⟩) 0 0 (by decide)

/-- Claim C9: after a completed traversal, re-running init with a second
ciphertext on the same instance reproduces, at every index, what a fresh
instance with the same context, degrees and repetition factor would
produce for that ciphertext. -/
theorem c9_instance_reuse (D : List Nat) (N R : Nat) (r : DFSSlotReplicator) (ct1 ct2 : Vec)
    (hmk : mkReplicator N D R = .ok r) (i : Nat) :
    manualOutput (stepN (D.prod - 1) (initCursor r ct1).2) ct2 i =
      manualOutput r ct2 i := by
  obtain ⟨-, -, rfl⟩ := mk_ok_iff.mp hmk
  obtain ⟨cur1, h1⟩ := initCursor_shape N D R .uninitialized ct1
  rw [h1]
  obtain ⟨cur2, h2⟩ := stepN_shape (D.prod - 1) N D R cur1
  rw [h2]
  exact manualOutput_cursor_irrel N D R cur2 ct2 i

/-- Witness for C9: D = [2], first input 1,2, second input 3,4, index 0. -/
theorem c9_instance_reuse_witness :
    manualOutput (stepN (([2] : List Nat).prod - 1)
        (initCursor ⟨2, [2], 1, .uninitialized⟩ (patVec 2 2)).2) [(3 : Int), 4] 0 =
      manualOutput ⟨2, [2], 1, .uninitialized⟩ [(3 : Int), 4] 0 :=
  c9_instance_reuse [2] 2 1 ⟨2, [2], 1, .uninitialized⟩ (patVec 2 2) [(3 : Int), 4]
    (mk_ok_iff.mpr ⟨by decide, by decide, rfl⟩) 0

/-- Claim C10: in every reachable cursor state the path stack holds at
most as many encrypted-vector nodes as the degree sequence has levels,
and an exhausted or uninitialized cursor holds none. -/
theorem c10_bounded_path (N : Nat) (D : List Nat) (R : Nat) (r0 r : DFSSlotReplicator)
    (hmk : mkReplicator N D R = .ok r0) (hr : Reaches r0 r) :
    r.degrees = D ∧ pathLen r ≤ D.length ∧
      (r.cursor = .exhausted → pathLen r = 0) ∧
      (r.cursor = .uninitialized → pathLen r = 0) := by
  obtain ⟨-, -, rfl⟩ := mk_ok_iff.mp hmk
  have hmain : r.degrees = D ∧ pathLen r ≤ D.length := by
    induction hr with
    | refl => exact ⟨rfl, by simp [pathLen]⟩
    | init rr ct hpr ih =>
      refine ⟨by rw [initCursor_snd_degrees]; exact ih.1, ?_⟩
      have hp := pathLen_initCursor rr ct
      rw [ih.1] at hp
      exact hp
    | next rr hpr ih =>
      refine ⟨by rw [next_replica_snd_degrees]; exact ih.1, ?_⟩
      have hp := pathLen_next_le rr (by rw [ih.1]; exact ih.2)
      rw [ih.1] at hp
      exact hp
  refine ⟨hmain.1, hmain.2, fun h => ?_, fun h => ?_⟩ <;> simp [pathLen, h]

/-- Witness for C10: the freshly constructed replicator for D = [2]. -/
theorem c10_bounded_path_witness :
    (⟨2, [2], 1, .uninitialized⟩ : DFSSlotReplicator).degrees = [2] ∧
      pathLen ⟨2, [2], 1, .uninitialized⟩ ≤ ([2] : List Nat).length ∧
      ((⟨2, [2], 1, .uninitialized⟩ : DFSSlotReplicator).cursor = .exhausted →
        pathLen ⟨2, [2], 1, .uninitialized⟩ = 0) ∧
      ((⟨2, [2], 1, .uninitialized⟩ : DFSSlotReplicator).cursor = .uninitialized →
        pathLen ⟨2, [2], 1, .uninitialized⟩ = 0) :=
  c10_bounded_path 2 [2] 1 ⟨2, [2], 1, .uninitialized⟩ ⟨2, [2], 1, .uninitialized⟩
    (mk_ok_iff.mpr ⟨by decide, by decide, rfl⟩) Reaches.refl

end SlotRep
